import Mathlib

/-!
Verification of the chunked per-key aggregation program (`src/main.rs`).

The program is embedded shallowly:

* bytes are `Nat`s, byte buffers are `List Nat`;
* Rust `i32` arithmetic (release build: two's-complement wrapping) is `Int`
  together with an explicit reduction `i32wrap` into `[-2^31, 2^31)`;
* `memchr` / `memchr2` are `memchrP` instantiated at the relevant predicates;
* `memchr2_iter` plus the pairing `while let (Some _, Some _)` loop of
  `process_chunk_v2` is `hitIdxs` plus `tokensFromHits`;
* an `AHashMap<Key, Record>` is an association list with unique keys;
* a Rust panic (the out-of-range `copy_from_slice` for keys longer than 32
  bytes) is `Option`, with `none` for the panic;
* `read_exact_at`/`read_at` reading at `offset` into a buffer of `bufLen`
  bytes, zero-filling past end of file, is `chunkBuffer`; the case where both
  reads fail is the `failAt` parameter of `read_chunkF`;
* the chunk offsets produced jointly by `main`'s thread loop (stride
  `CHUNK_SIZE * DISPATCH_LOOPS`) and `dispatch`'s inner loop (stride
  `CHUNK_SIZE`, `break` at `file_len`) are all multiples of the chunk size
  below the file length, `chunkOffsets`.

The chunk size is kept as a parameter `c` (the source fixes `CHUNK_SIZE`,
`1 MiB`); the excess margin is the source constant `CHUNK_EXCESS = 64`.
-/

set_option maxRecDepth 10000

/-- `CHUNK_EXCESS` from the source. -/
def CHUNK_EXCESS : Nat := 64

/-- `CHUNK_SIZE` from the source. -/
def CHUNK_SIZE : Nat := 1024 * 1024

/-- `DISPATCH_LOOPS` from the source. -/
def DISPATCH_LOOPS : Nat := 128

/-- Two's-complement wrapping of an unbounded integer into the `i32` range
`[-2^31, 2^31)`; models Rust release-mode `i32` arithmetic. -/
def i32wrap (x : Int) : Int := (x + 2 ^ 31) % 2 ^ 32 - 2 ^ 31

/-- First index whose byte satisfies `p` (the `memchr` family). -/
def memchrP (p : Nat → Bool) : List Nat → Option Nat
  | [] => none
  | b :: rest => if p b then some 0 else (memchrP p rest).map (· + 1)

/-- `memchr::memchr(c, l)`. -/
def memchr (c : Nat) (l : List Nat) : Option Nat := memchrP (fun b => b == c) l

/-- `memchr::memchr2(c₁, c₂, l)`. -/
def memchr2 (c1 c2 : Nat) (l : List Nat) : Option Nat :=
  memchrP (fun b => b == c1 || b == c2) l

/-- The byte range `l[a..b]` of Rust (empty when `b ≤ a`). -/
def sliceBytes (l : List Nat) (a b : Nat) : List Nat := (l.drop a).take (b - a)

/-- Ascending list of all indices holding `b';'` (59) or `b'\n'` (10):
the hits of `memchr::memchr2_iter(b';', b'\n', buffer)`. -/
def hitIdxs : List Nat → List Nat
  | [] => []
  | b :: rest =>
      if b = 59 ∨ b = 10 then 0 :: (hitIdxs rest).map (· + 1)
      else (hitIdxs rest).map (· + 1)

/-- The `while let (Some(semi), Some(end)) = (end.next(), end.next())` loop of
`process_chunk_v2`: consume the hit list two at a time, emitting the key bytes
`buffer[prev_end..semi]` and the value bytes `buffer[semi + 1..end]`. -/
def tokensFromHits (buffer : List Nat) : Nat → List Nat → List (List Nat × List Nat)
  | _, [] => []
  | _, [_] => []
  | prev, s :: e :: rest =>
      (sliceBytes buffer prev s, sliceBytes buffer (s + 1) e) ::
        tokensFromHits buffer (e + 1) rest

/-- All (key bytes, value bytes) pairs the tokenizing loop of
`process_chunk_v2` emits for a buffer. -/
def tokens (buffer : List Nat) : List (List Nat × List Nat) :=
  tokensFromHits buffer 0 (hitIdxs buffer)

/-- The digit loop of `fixed_point_parse`: `res = res * 10 + (byte - b'0')`
(wrapping `i32` arithmetic), stopping at the first non-digit byte. -/
def parseDigits : Int → List Nat → Int
  | res, [] => res
  | res, b :: rest =>
      if 48 ≤ b ∧ b ≤ 57 then parseDigits (i32wrap (res * 10 + ((b : Int) - 48))) rest
      else res

/-- `fixed_point_parse` from the source: optional leading `b'-'` (45)
(`!b.is_empty() && b[0] == b'-'`), then the digit loop; the final negation is
again wrapping `i32` arithmetic. -/
def fixed_point_parse (b : List Nat) : Int :=
  if b.head? = some 45 then i32wrap (-(parseDigits 0 (b.drop 1)))
  else parseDigits 0 b

/-- The `Record` struct: `max`, `min`, `count`, `sum`, all `i32`. -/
structure Record where
  max : Int
  min : Int
  count : Int
  sum : Int
deriving DecidableEq, Repr

/-- `Record::new(value)`. -/
def Record.new (value : Int) : Record :=
  { max := value, min := value, count := 1, sum := value }

/-- The in-place update of `process_chunk_v2` for a key already present:
`count += 1; sum += value; max = max.max(value); min = min.min(value)`. -/
def updateRec (r : Record) (value : Int) : Record :=
  { max := Max.max r.max value, min := Min.min r.min value,
    count := i32wrap (r.count + 1), sum := i32wrap (r.sum + value) }

/-- The per-key merge performed by `dispatch` and `main` when folding one
table into another. -/
def mergeRecord (a b : Record) : Record :=
  { max := Max.max a.max b.max, min := Min.min a.min b.min,
    count := i32wrap (a.count + b.count), sum := i32wrap (a.sum + b.sum) }

/-- The `AHashMap<Key, Record>` tables, as association lists. -/
abbrev Table := List (List Nat × Record)

/-- Map lookup (`get`/`get_mut` hit or miss). -/
def tableGet (t : Table) (k : List Nat) : Option Record :=
  match t with
  | [] => none
  | (k', r) :: rest => if k' = k then some r else tableGet rest k

/-- The per-line map update of `process_chunk_v2`: update the record under `k`
if present, else insert `Record::new v`. -/
def accumulate (t : Table) (k : List Nat) (v : Int) : Table :=
  match t with
  | [] => [(k, Record.new v)]
  | (k', r) :: rest =>
      if k' = k then (k', updateRec r v) :: rest else (k', r) :: accumulate rest k v

/-- One step of the table-merge loops of `dispatch` and `main`: merge `r` into
the record under `k` if present, else insert it. -/
def insertMerge (t : Table) (k : List Nat) (r : Record) : Table :=
  match t with
  | [] => [(k, r)]
  | (k', r') :: rest =>
      if k' = k then (k', mergeRecord r' r) :: rest else (k', r') :: insertMerge rest k r

/-- `for (key, other) in l_map { ... }`: fold every entry of `t2` into `t1`. -/
def mergeTables (t1 t2 : Table) : Table :=
  t2.foldl (fun acc e => insertMerge acc e.1 e.2) t1

/-- Building the fixed 32-byte key `arr`: `Key::default()` zero-padding after
`arr[..semi - prev_end].copy_from_slice(..)`.  A key longer than 32 bytes
makes the slice index out of range, a panic: `none`. -/
def mkKey (bytes : List Nat) : Option (List Nat) :=
  if bytes.length ≤ 32 then some (bytes ++ List.replicate (32 - bytes.length) 0) else none

/-- `process_chunk_v2`: tokenize the buffer and fold every record into a fresh
table; `none` models the panic on a key longer than 32 bytes. -/
def process_chunk_v2 (buffer : List Nat) : Option Table :=
  (tokens buffer).foldlM
    (fun t kv => (mkKey kv.1).map (fun key => accumulate t key (fixed_point_parse kv.2)))
    []

/-- The bytes `read_exact_at`/`read_at` leave in the buffer: the file bytes
from `offset` on, zero-filled up to `bufLen` when the file runs out. -/
def chunkBuffer (file : List Nat) (offset bufLen : Nat) : List Nat :=
  (file.drop offset).take bufLen ++ List.replicate (bufLen - (file.length - offset)) 0

/-- `read_chunk` from the source (read succeeded, possibly short): `start` is
just after the first newline when `offset != 0`, else `0`; the end is just
after the first newline-or-NUL at or past `core_len = bufLen - CHUNK_EXCESS`,
or `bufLen` when there is none. -/
def read_chunk (file : List Nat) (offset bufLen : Nat) : Nat × Nat :=
  let buffer := chunkBuffer file offset bufLen
  let core_len := bufLen - CHUNK_EXCESS
  let start :=
    if offset ≠ 0 then
      match memchr 10 buffer with
      | some i => i + 1
      | none => 0
    else 0
  let e :=
    match memchr2 10 0 (buffer.drop core_len) with
    | some i => core_len + i + 1
    | none => bufLen
  (start, e)

/-- `read_chunk` including its error path: when both `read_exact_at` and
`read_at` fail at `offset` (`failAt offset`), it returns `(0, 0)`. -/
def read_chunkF (failAt : Nat → Bool) (file : List Nat) (offset bufLen : Nat) : Nat × Nat :=
  if failAt offset then (0, 0) else read_chunk file offset bufLen

/-- The valid byte range of one chunk: `&buffer[start..end]`. -/
def chunkSlice (c : Nat) (file : List Nat) (o : Nat) : List Nat :=
  sliceBytes (chunkBuffer file o (c + CHUNK_EXCESS))
    (read_chunk file o (c + CHUNK_EXCESS)).1 (read_chunk file o (c + CHUNK_EXCESS)).2

/-- The valid byte range of one chunk when reads can fail. -/
def chunkSliceF (c : Nat) (file : List Nat) (failAt : Nat → Bool) (o : Nat) : List Nat :=
  sliceBytes (chunkBuffer file o (c + CHUNK_EXCESS))
    (read_chunkF failAt file o (c + CHUNK_EXCESS)).1
    (read_chunkF failAt file o (c + CHUNK_EXCESS)).2

/-- All chunk offsets the program processes: `main` strides by
`CHUNK_SIZE * DISPATCH_LOOPS` while `offset < file_len`, and `dispatch` covers
the `DISPATCH_LOOPS` sub-offsets, breaking at `file_len`; together, every
multiple of the chunk size below the file length. -/
def chunkOffsets (c n : Nat) : List Nat :=
  (List.range ((n + c - 1) / c)).map (· * c)

/-- All (key bytes, value bytes) pairs tokenized across all chunks, in chunk
order. -/
def pipelineTokens (c : Nat) (file : List Nat) : List (List Nat × List Nat) :=
  ((chunkOffsets c file.length).map (fun o => tokens (chunkSlice c file o))).flatten

/-- The final aggregation table of the whole job (reads failing at the offsets
selected by `failAt`): every chunk is processed and merged; `none` only for
the long-key panic. -/
def pipelineTableF (c : Nat) (file : List Nat) (failAt : Nat → Bool) : Option Table :=
  (chunkOffsets c file.length).foldlM
    (fun acc o => (process_chunk_v2 (chunkSliceF c file failAt o)).map (mergeTables acc))
    []

/-- Modelled from the spec: the exact (unbounded) value of the maximal leading
digit run, the reference point for `fixed_point_parse`'s digit loop. -/
def digitsVal : Int → List Nat → Int
  | acc, [] => acc
  | acc, b :: rest =>
      if 48 ≤ b ∧ b ≤ 57 then digitsVal (acc * 10 + ((b : Int) - 48)) rest
      else acc

/-- Modelled from the spec: the exact signed value of the maximal leading
digit run after an optional minus sign. -/
def leadingNumber (b : List Nat) : Int :=
  if b.head? = some 45 then -(digitsVal 0 (b.drop 1))
  else digitsVal 0 b

/-- One line of a record file: `key ; value \n`. -/
def lineBytes (r : List Nat × List Nat) : List Nat := r.1 ++ 59 :: (r.2 ++ [10])

/-- The byte content of a record file. -/
def fileOf (recs : List (List Nat × List Nat)) : List Nat := (recs.map lineBytes).flatten

/-- Key/value bytes contain no delimiter, no terminator and no NUL. -/
def kvFree (l : List Nat) : Prop := ∀ b ∈ l, b ≠ 59 ∧ b ≠ 10 ∧ b ≠ 0

/-- A well-formed record file: every key and value is `kvFree` and every line,
terminator included, fits in the `CHUNK_EXCESS` margin. -/
def wfRecs (recs : List (List Nat × List Nat)) : Prop :=
  ∀ r ∈ recs, kvFree r.1 ∧ kvFree r.2 ∧ (lineBytes r).length ≤ CHUNK_EXCESS

/-- Split a record list at the end of the line containing byte position `p`
(`p` past the end: everything in the first component). -/
def cutRecs : List (List Nat × List Nat) → Nat → List (List Nat × List Nat) × List (List Nat × List Nat)
  | [], _ => ([], [])
  | r :: rest, p =>
      if p < (lineBytes r).length then ([r], rest)
      else
        let c := cutRecs rest (p - (lineBytes r).length)
        (r :: c.1, c.2)

/-- The byte position of the line boundary just after the line containing
byte position `p` (the cut produced by `cutRecs`). -/
def cutLen (recs : List (List Nat × List Nat)) (p : Nat) : Nat :=
  (fileOf (cutRecs recs p).1).length

/-- The multiset-of-observations reading of a `Record`: all observed values
lie between `min` and `max`, and `sum` and `count` are the total and the
number of observations, wrapped into `i32`. -/
def ObsInv (r : Record) (vs : List Int) : Prop :=
  (∀ v ∈ vs, r.min ≤ v ∧ v ≤ r.max) ∧
    r.sum = i32wrap vs.sum ∧ r.count = i32wrap (vs.length : Int)

/-- Per-key view of the table merge: `none` is "key absent". -/
def mergeOpt : Option Record → Option Record → Option Record
  | none, b => b
  | some r, none => some r
  | some r1, some r2 => some (mergeRecord r1 r2)

/-- Per-key view of one `accumulate`: insert `Record::new` or update. -/
def aggStep (o : Option Record) (v : Int) : Record :=
  match o with
  | none => Record.new v
  | some r => updateRec r v

/-- Per-key view of accumulating a whole list of values. -/
def aggValues (o : Option Record) (vs : List Int) : Option Record :=
  vs.foldl (fun acc v => some (aggStep acc v)) o

/-- The values a list of (key, value) observations holds for key `k`. -/
def valuesFor (obs : List (List Nat × Int)) (k : List Nat) : List Int :=
  (obs.filter (fun p => p.1 = k)).map (·.2)

/-- Single-pass aggregation of a list of observations into a fresh table
(the accumulation loop of `process_chunk_v2`, keys and values given). -/
def buildTable (obs : List (List Nat × Int)) : Table :=
  obs.foldl (fun t p => accumulate t p.1 p.2) []

/-- Folding any number of partial tables into one (`main`'s collection loop
over `rx.recv()`, and `dispatch`'s loop over its chunks). -/
def mergeAll (ts : List Table) : Table :=
  ts.foldl mergeTables []

/-- A table has pairwise distinct keys (always true of an `AHashMap`). -/
def NoDupKeys (t : Table) : Prop := (t.map Prod.fst).Nodup

/-- Concrete two-line file `aaaa;1\nb;2\n` for the failure-path scenario. -/
def fileC5 : List Nat := [97, 97, 97, 97, 59, 49, 10, 98, 59, 50, 10]

/-- Reads fail exactly at chunk offset 4. -/
def failAt4 : Nat → Bool := fun o => o == 4

/-- No read ever fails. -/
def noFail : Nat → Bool := fun _ => false

/-- A file whose first line (126 `a`s, `;1\n`, 129 bytes) is longer than the
`CHUNK_EXCESS` margin, followed by the line `b;2\n`. -/
def fileLongLine : List Nat := List.replicate 126 97 ++ [59, 49, 10, 98, 59, 50, 10]

/-! ### Arithmetic facts about `i32` wrapping -/

theorem i32wrap_zero : i32wrap 0 = 0 := by unfold i32wrap; omega

theorem i32wrap_one : i32wrap 1 = 1 := by unfold i32wrap; omega

theorem i32wrap_of_range {x : Int} (h1 : -2 ^ 31 ≤ x) (h2 : x < 2 ^ 31) :
    i32wrap x = x := by unfold i32wrap; omega

theorem i32wrap_wrap_mul_add (x d : Int) :
    i32wrap (i32wrap x * 10 + d) = i32wrap (x * 10 + d) := by unfold i32wrap; omega

theorem i32wrap_neg (x : Int) : i32wrap (-(i32wrap x)) = i32wrap (-x) := by
  unfold i32wrap; omega

theorem i32wrap_add_left (a b : Int) : i32wrap (i32wrap a + b) = i32wrap (a + b) := by
  unfold i32wrap; omega

theorem i32wrap_add_right (a b : Int) : i32wrap (a + i32wrap b) = i32wrap (a + b) := by
  unfold i32wrap; omega

/-! ### The numeric parser -/

theorem parseDigits_wrap (l : List Nat) :
    ∀ x : Int, parseDigits (i32wrap x) l = i32wrap (digitsVal x l) := by
  induction l with
  | nil => intro x; rfl
  | cons b rest ih =>
      intro x
      by_cases h : 48 ≤ b ∧ b ≤ 57
      · simp only [parseDigits, digitsVal, if_pos h]
        rw [i32wrap_wrap_mul_add]
        exact ih (x * 10 + ((b : Int) - 48))
      · simp only [parseDigits, digitsVal, if_neg h]

theorem parseDigits_from_zero (l : List Nat) :
    parseDigits 0 l = i32wrap (digitsVal 0 l) := by
  have h := parseDigits_wrap l 0
  rwa [i32wrap_zero] at h

/-- C1: the claim that `fixed_point_parse` returns the decimal value scaled by
ten is false of the code: the digit loop `break`s at the first non-digit byte,
so `b'.'` terminates parsing and the fractional digit is ignored.  Parsing
`"12.3"` yields `12` (the claim requires `123`), `"-0.5"` yields `0` (the
claim requires `-5`), `"-99.9"` yields `-99` (the claim requires `-999`);
`"0.0"` yields `0` only coincidentally. -/
theorem c1_fixed_point_parse_ignores_fraction :
    fixed_point_parse [49, 50, 46, 51] = 12 ∧
    fixed_point_parse [45, 48, 46, 53] = 0 ∧
    fixed_point_parse [45, 57, 57, 46, 57] = -99 ∧
    fixed_point_parse [48, 46, 48] = 0 := by decide

/-- C10 (amended): `fixed_point_parse` is total and returns the signed value
of the maximal run of leading ASCII digits after the optional sign — reduced
into `i32` by two's-complement wrapping — stopping at the first non-digit
byte (hence `b'.'` terminates parsing); the empty slice and `"-"` give `0`
as instances (`leadingNumber [] = 0`, `leadingNumber [45] = -0`). -/
theorem c10_parse_eq_wrapped_leading (b : List Nat) :
    fixed_point_parse b = i32wrap (leadingNumber b) := by
  by_cases h : b.head? = some 45
  · simp only [fixed_point_parse, leadingNumber, if_pos h, parseDigits_from_zero, i32wrap_neg]
  · simp only [fixed_point_parse, leadingNumber, if_neg h, parseDigits_from_zero]

/-- C10: as literally stated ("returns the signed value of the maximal run of
leading ASCII digits") the claim fails on overflow: the digit loop is `i32`
arithmetic, so parsing `"3000000000"` wraps to `-1294967296`, not the value
`3000000000` of its leading digit run. -/
theorem c10_parse_overflow_cex :
    fixed_point_parse [51, 48, 48, 48, 48, 48, 48, 48, 48, 48] = -1294967296 ∧
    leadingNumber [51, 48, 48, 48, 48, 48, 48, 48, 48, 48] = 3000000000 ∧
    (-1294967296 : Int) ≠ 3000000000 := by decide

/-! ### The record invariant (C9) -/

/-- C9 (amended): every record produced by accumulation and merging satisfies
`min ≤ v ≤ max` for every observed value `v`, while `sum` and `count` equal
the exact total and the number of observations *reduced modulo `2^32` into
`i32`* (equal to the exact values only while they stay in `i32` range). -/
theorem c9_obs_invariant_wrapped :
    (∀ v : Int, -2 ^ 31 ≤ v → v < 2 ^ 31 → ObsInv (Record.new v) [v]) ∧
    (∀ r vs v, ObsInv r vs → ObsInv (updateRec r v) (vs ++ [v])) ∧
    (∀ r1 vs1 r2 vs2, ObsInv r1 vs1 → ObsInv r2 vs2 →
      ObsInv (mergeRecord r1 r2) (vs1 ++ vs2)) := by
  refine ⟨?_, ?_, ?_⟩
  · intro v h1 h2
    refine ⟨?_, ?_, ?_⟩
    · intro x hx
      simp only [List.mem_singleton] at hx
      subst hx
      exact ⟨le_refl _, le_refl _⟩
    · simp only [List.sum_cons, List.sum_nil, add_zero, Record.new]
      exact (i32wrap_of_range h1 h2).symm
    · simp only [Record.new, List.length_singleton, Nat.cast_one, i32wrap_one]
  · rintro r vs v ⟨hb, hs, hc⟩
    refine ⟨?_, ?_, ?_⟩
    · intro x hx
      rcases List.mem_append.mp hx with hx | hx
      · exact ⟨le_trans (min_le_left _ _) (hb x hx).1, le_trans (hb x hx).2 (le_max_left _ _)⟩
      · simp only [List.mem_singleton] at hx
        subst hx
        exact ⟨min_le_right _ _, le_max_right _ _⟩
    · simp only [updateRec, List.sum_append, List.sum_cons, List.sum_nil, add_zero, hs,
        i32wrap_add_left]
    · simp only [updateRec, List.length_append, List.length_singleton, hc, i32wrap_add_left]
      norm_num
  · rintro r1 vs1 r2 vs2 ⟨hb1, hs1, hc1⟩ ⟨hb2, hs2, hc2⟩
    refine ⟨?_, ?_, ?_⟩
    · intro x hx
      rcases List.mem_append.mp hx with hx | hx
      · exact ⟨le_trans (min_le_left _ _) (hb1 x hx).1, le_trans (hb1 x hx).2 (le_max_left _ _)⟩
      · exact ⟨le_trans (min_le_right _ _) (hb2 x hx).1, le_trans (hb2 x hx).2 (le_max_right _ _)⟩
    · simp only [mergeRecord, List.sum_append, hs1, hs2, i32wrap_add_left, i32wrap_add_right]
    · simp only [mergeRecord, List.length_append, hc1, hc2, i32wrap_add_left, i32wrap_add_right]
      norm_num

theorem c9_obs_invariant_wrapped_witness :
    ObsInv (Record.new 5) [5] ∧ ObsInv (updateRec (Record.new 5) 7) ([5] ++ [7]) := by
  have h1 := c9_obs_invariant_wrapped.1 5 (by decide) (by decide)
  exact ⟨h1, c9_obs_invariant_wrapped.2.1 (Record.new 5) [5] 7 h1⟩

/-- C9: as literally stated ("`sum` equals the exact accumulated total") the
claim fails on the code's `i32` sums: two observations of `2000000000`
(parseable, in `i32` range) accumulate to `sum = -294967296`, not the exact
total `4000000000`. -/
theorem c9_sum_overflow_cex :
    (updateRec (Record.new 2000000000) 2000000000).sum = -294967296 ∧
    (updateRec (Record.new 2000000000) 2000000000).count = 2 ∧
    (-294967296 : Int) ≠ 2000000000 + 2000000000 := by decide

/-- C3: a file whose final line lacks the trailing terminator loses that
line.  For the 3-byte file `"a;5"` (one chunk, chunk size 8, buffer 72):
`read_chunk` returns end `9` — one past the first zero-fill byte, not the
true end `3` of valid data — and the tokenizer, which pairs only `b';'`/`b'\n'`
hits and never sees a terminator for the last line, emits nothing, so the
final aggregation table is empty and the pair `("a", 5)` is not counted. -/
theorem c3_truncated_final_line_dropped :
    pipelineTableF 8 [97, 59, 53] noFail = some [] ∧
    read_chunk [97, 59, 53] 0 72 = (0, 9) := by decide

/-! ### Table lookup and accumulation (C7) -/

theorem tableGet_accumulate_self (t : Table) (k : List Nat) (v : Int) :
    tableGet (accumulate t k v) k = some (aggStep (tableGet t k) v) := by
  induction t with
  | nil => simp [accumulate, tableGet, aggStep]
  | cons e rest ih =>
      obtain ⟨k', r⟩ := e
      by_cases h : k' = k
      · subst h
        simp [accumulate, tableGet, aggStep]
      · simp [accumulate, tableGet, h, ih]

theorem tableGet_accumulate_ne (t : Table) (k : List Nat) (v : Int) (k' : List Nat)
    (h : k' ≠ k) : tableGet (accumulate t k v) k' = tableGet t k' := by
  induction t with
  | nil => simp [accumulate, tableGet, Ne.symm h]
  | cons e rest ih =>
      obtain ⟨k2, r⟩ := e
      by_cases h2 : k2 = k
      · subst h2
        simp [accumulate, tableGet, Ne.symm h]
      · by_cases h3 : k2 = k'
        · subst h3
          simp [accumulate, tableGet, h2]
        · simp [accumulate, tableGet, h2, h3, ih]

/-- C7: `accumulate` inserts `Record::new value` (`max = min = sum = value`,
`count = 1`) when the key is absent, updates an existing record to
`count + 1`, `sum + value`, `max(max, value)`, `min(min, value)` (`i32`
arithmetic) when present, and leaves every other key's record unchanged. -/
theorem c7_accumulate_spec :
    (∀ t k v, tableGet t k = none →
        tableGet (accumulate t k v) k =
          some { max := v, min := v, count := 1, sum := v }) ∧
    (∀ t k v r, tableGet t k = some r →
        tableGet (accumulate t k v) k =
          some { max := Max.max r.max v, min := Min.min r.min v,
                 count := i32wrap (r.count + 1), sum := i32wrap (r.sum + v) }) ∧
    (∀ t k v k', k' ≠ k → tableGet (accumulate t k v) k' = tableGet t k') := by
  refine ⟨?_, ?_, fun t k v k' h => tableGet_accumulate_ne t k v k' h⟩
  · intro t k v h
    rw [tableGet_accumulate_self, h]
    rfl
  · intro t k v r h
    rw [tableGet_accumulate_self, h]
    rfl

theorem c7_accumulate_spec_witness :
    tableGet (accumulate [] [97] 5) [97] =
      some { max := 5, min := 5, count := 1, sum := 5 } ∧
    tableGet (accumulate [([97], Record.new 5)] [97] 7) [97] =
      some { max := 7, min := 5, count := 2, sum := 12 } ∧
    tableGet (accumulate [([97], Record.new 5)] [97] 7) [98] = none := by
  refine ⟨c7_accumulate_spec.1 [] [97] 5 (by rfl), ?_, ?_⟩
  · rw [c7_accumulate_spec.2.1 [([97], Record.new 5)] [97] 7 (Record.new 5) (by rfl)]
    decide
  · rw [c7_accumulate_spec.2.2 [([97], Record.new 5)] [97] 7 [98] (by decide)]
    rfl

/-! ### The tokenizer's hit list -/

theorem hitIdxs_append (xs ys : List Nat) :
    hitIdxs (xs ++ ys) = hitIdxs xs ++ (hitIdxs ys).map (· + xs.length) := by
  induction xs with
  | nil =>
      simp only [List.nil_append, hitIdxs, List.length_nil]
      rw [List.map_congr_left (fun a _ => Nat.add_zero a), List.map_id']
  | cons b rest ih =>
      simp only [List.cons_append, hitIdxs, List.append_eq, ih, List.length_cons]
      by_cases h : b = 59 ∨ b = 10
      · rw [if_pos h, if_pos h, List.map_append, List.map_map, List.cons_append]
        congr 2
      · rw [if_neg h, if_neg h, List.map_append, List.map_map]
        congr 1

theorem hitIdxs_eq_nil {l : List Nat} (h : ∀ b ∈ l, b ≠ 59 ∧ b ≠ 10) :
    hitIdxs l = [] := by
  induction l with
  | nil => rfl
  | cons b rest ih =>
      have hb := h b (List.mem_cons_self b rest)
      have : ¬(b = 59 ∨ b = 10) := by tauto
      simp only [hitIdxs, if_neg this, ih (fun x hx => h x (List.mem_cons_of_mem b hx)),
        List.map_nil]

theorem hitIdxs_replicate_zero (m : Nat) : hitIdxs (List.replicate m 0) = [] :=
  hitIdxs_eq_nil (by intro b hb; rw [List.eq_of_mem_replicate hb]; omega)

theorem hitIdxs_lt_length {l : List Nat} : ∀ x ∈ hitIdxs l, x < l.length := by
  induction l with
  | nil => simp [hitIdxs]
  | cons b rest ih =>
      intro x hx
      simp only [hitIdxs] at hx
      by_cases h : b = 59 ∨ b = 10
      · rw [if_pos h] at hx
        rcases List.mem_cons.mp hx with rfl | hx
        · simp
        · obtain ⟨y, hy, rfl⟩ := List.mem_map.mp hx
          simpa using ih y hy
      · rw [if_neg h] at hx
        obtain ⟨y, hy, rfl⟩ := List.mem_map.mp hx
        simpa using ih y hy

theorem sliceBytes_append_of_le {xs ys : List Nat} {a b : Nat} (h : b ≤ xs.length) :
    sliceBytes (xs ++ ys) a b = sliceBytes xs a b := by
  unfold sliceBytes
  by_cases ha : a ≤ xs.length
  · rw [List.drop_append_of_le_length ha, List.take_append_of_le_length (by simp; omega)]
  · have h0 : b - a = 0 := by omega
    simp [h0]

theorem tokensFromHits_append_of_bounded {xs ys : List Nat} :
    ∀ (hs : List Nat) (p : Nat), (∀ x ∈ hs, x < xs.length) →
      tokensFromHits (xs ++ ys) p hs = tokensFromHits xs p hs
  | [], _, _ => rfl
  | [_], _, _ => rfl
  | s :: e :: rest, p, hb => by
      have hs : s < xs.length := hb s (by simp)
      have he : e < xs.length := hb e (by simp)
      simp only [tokensFromHits]
      rw [sliceBytes_append_of_le (by omega), sliceBytes_append_of_le (by omega),
        tokensFromHits_append_of_bounded rest (e + 1) (fun x hx => hb x (by simp [hx]))]

theorem tokens_append_replicate_zero (xs : List Nat) (m : Nat) :
    tokens (xs ++ List.replicate m 0) = tokens xs := by
  unfold tokens
  rw [hitIdxs_append, hitIdxs_replicate_zero, List.map_nil, List.append_nil]
  exact tokensFromHits_append_of_bounded _ 0 hitIdxs_lt_length

/-! ### `memchr` characterizations -/

theorem memchrP_some_lt {p : Nat → Bool} {l : List Nat} {i : Nat}
    (h : memchrP p l = some i) : i < l.length := by
  induction l generalizing i with
  | nil => simp [memchrP] at h
  | cons b rest ih =>
      simp only [memchrP] at h
      by_cases hb : p b
      · rw [if_pos hb] at h
        cases h
        simp
      · rw [if_neg hb] at h
        obtain ⟨j, hj, rfl⟩ := Option.map_eq_some'.mp h
        simpa using ih hj

theorem memchrP_spec {p : Nat → Bool} {l : List Nat} {i : Nat}
    (h : memchrP p l = some i) :
    p (l.getD i 0) = true ∧ ∀ j, j < i → p (l.getD j 0) = false := by
  induction l generalizing i with
  | nil => simp [memchrP] at h
  | cons b rest ih =>
      simp only [memchrP] at h
      by_cases hb : p b
      · rw [if_pos hb] at h
        cases h
        exact ⟨hb, by omega⟩
      · rw [if_neg hb] at h
        obtain ⟨j, hj, rfl⟩ := Option.map_eq_some'.mp h
        obtain ⟨h1, h2⟩ := ih hj
        refine ⟨h1, ?_⟩
        intro m hm
        match m with
        | 0 => simpa using hb
        | Nat.succ m' => exact h2 m' (by omega)

theorem memchrP_eq_none {p : Nat → Bool} {l : List Nat}
    (h : ∀ j, j < l.length → p (l.getD j 0) = false) : memchrP p l = none := by
  induction l with
  | nil => rfl
  | cons b rest ih =>
      have hb : p b = false := by
        have h0 := h 0 (by simp)
        simpa [List.getD_cons_zero] using h0
      have hcond : ¬(p b = true) := by rw [hb]; simp
      simp only [memchrP, if_neg hcond, Option.map_eq_none']
      exact ih fun j hj => by
        have hj1 := h (j + 1) (by simpa using hj)
        simpa [List.getD_cons_succ] using hj1

theorem memchrP_eq_some {p : Nat → Bool} {l : List Nat} {i : Nat}
    (h1 : i < l.length) (h2 : p (l.getD i 0) = true)
    (h3 : ∀ j, j < i → p (l.getD j 0) = false) : memchrP p l = some i := by
  induction l generalizing i with
  | nil => simp at h1
  | cons b rest ih =>
      match i with
      | 0 =>
          simp only [List.getD_cons_zero] at h2
          simp [memchrP, h2]
      | Nat.succ i' =>
          have hb : p b = false := by
            have h0 := h3 0 (by omega)
            simpa [List.getD_cons_zero] using h0
          have hcond : ¬(p b = true) := by rw [hb]; simp
          simp only [memchrP, if_neg hcond]
          rw [ih (by simpa using h1) (by simpa [List.getD_cons_succ] using h2)
            (fun j hj => by
              have hj1 := h3 (j + 1) (by omega)
              simpa [List.getD_cons_succ] using hj1)]
          rfl

/-! ### Slices -/

theorem sliceBytes_shift (pre rest : List Nat) (a b : Nat) :
    sliceBytes (pre ++ rest) (pre.length + a) (pre.length + b) = sliceBytes rest a b := by
  unfold sliceBytes
  rw [List.drop_append]
  congr 1
  omega

theorem sliceBytes_append (xs ys : List Nat) (a b : Nat) :
    sliceBytes (xs ++ ys) a b =
      sliceBytes xs a b ++ sliceBytes ys (a - xs.length) (b - xs.length) := by
  unfold sliceBytes
  rw [List.drop_append_eq_append_drop, List.take_append_eq_append_take]
  congr 1
  congr 1
  simp only [List.length_drop]
  omega

theorem sliceBytes_replicate (z a b : Nat) :
    sliceBytes (List.replicate z (0 : Nat)) a b = List.replicate (min (b - a) (z - a)) 0 := by
  unfold sliceBytes
  rw [List.drop_replicate, List.take_replicate]

theorem tokensFromHits_shift (pre rest : List Nat) :
    ∀ (hs : List Nat) (p : Nat),
      tokensFromHits (pre ++ rest) (pre.length + p) (hs.map (· + pre.length)) =
        tokensFromHits rest p hs
  | [], _ => rfl
  | [_], _ => rfl
  | s :: e :: hs, p => by
      simp only [List.map_cons, tokensFromHits]
      rw [show s + pre.length = pre.length + s by omega,
        show e + pre.length = pre.length + e by omega,
        show pre.length + s + 1 = pre.length + (s + 1) by omega,
        sliceBytes_shift, sliceBytes_shift,
        show pre.length + e + 1 = pre.length + (e + 1) by omega,
        tokensFromHits_shift pre rest hs (e + 1)]

/-! ### Tokenizing whole lines -/

theorem hitIdxs_line (k v tail : List Nat)
    (hk : ∀ b ∈ k, b ≠ 59 ∧ b ≠ 10) (hv : ∀ b ∈ v, b ≠ 59 ∧ b ≠ 10) :
    hitIdxs (lineBytes (k, v) ++ tail) =
      k.length :: (k.length + 1 + v.length) ::
        (hitIdxs tail).map (· + (k.length + 1 + v.length + 1)) := by
  have h1 : lineBytes (k, v) ++ tail = k ++ 59 :: (v ++ 10 :: tail) := by
    simp [lineBytes]
  rw [h1, hitIdxs_append, hitIdxs_eq_nil hk, List.nil_append]
  have h2 : hitIdxs (59 :: (v ++ 10 :: tail)) =
      0 :: (hitIdxs (v ++ 10 :: tail)).map (· + 1) := by
    simp [hitIdxs]
  have h3 : hitIdxs (v ++ 10 :: tail) = (hitIdxs (10 :: tail)).map (· + v.length) := by
    rw [hitIdxs_append, hitIdxs_eq_nil hv, List.nil_append]
  have h4 : hitIdxs (10 :: tail) = 0 :: (hitIdxs tail).map (· + 1) := by
    simp [hitIdxs]
  rw [h2, h3, h4]
  simp only [List.map_cons, List.map_map, List.cons.injEq]
  refine ⟨by omega, by omega, ?_⟩
  exact List.map_congr_left fun a _ => by simp only [Function.comp_apply]; omega

theorem lineBytes_length (k v : List Nat) :
    (lineBytes (k, v)).length = k.length + 1 + v.length + 1 := by
  simp only [lineBytes, List.length_append, List.length_cons, List.length_nil]
  omega

theorem tokens_line_cons (k v tail : List Nat)
    (hk : ∀ b ∈ k, b ≠ 59 ∧ b ≠ 10) (hv : ∀ b ∈ v, b ≠ 59 ∧ b ≠ 10) :
    tokens (lineBytes (k, v) ++ tail) = (k, v) :: tokens tail := by
  unfold tokens
  rw [hitIdxs_line k v tail hk hv]
  simp only [tokensFromHits]
  have hkey : sliceBytes (lineBytes (k, v) ++ tail) 0 k.length = k := by
    unfold sliceBytes
    rw [List.drop_zero, Nat.sub_zero]
    have : lineBytes (k, v) ++ tail = k ++ (59 :: (v ++ [10]) ++ tail) := by
      simp [lineBytes]
    rw [this, List.take_left]
  have hval : sliceBytes (lineBytes (k, v) ++ tail) (k.length + 1) (k.length + 1 + v.length) = v := by
    have hre : lineBytes (k, v) ++ tail = (k ++ [59]) ++ (v ++ 10 :: tail) := by
      simp [lineBytes]
    have h0 := sliceBytes_shift (k ++ [59]) (v ++ 10 :: tail) 0 v.length
    rw [Nat.add_zero] at h0
    rw [hre, show k.length + 1 = (k ++ [59]).length by simp, h0]
    unfold sliceBytes
    rw [List.drop_zero, Nat.sub_zero, List.take_left]
  rw [hkey, hval]
  have hshift : tokensFromHits (lineBytes (k, v) ++ tail) (k.length + 1 + v.length + 1)
      ((hitIdxs tail).map (· + (k.length + 1 + v.length + 1))) = tokens tail := by
    have hlen : k.length + 1 + v.length + 1 = (lineBytes (k, v)).length := (lineBytes_length k v).symm
    rw [hlen, show (lineBytes (k, v)).length = (lineBytes (k, v)).length + 0 by omega]
    have := tokensFromHits_shift (lineBytes (k, v)) tail (hitIdxs tail) 0
    rw [show (lineBytes (k, v)).length + 0 = (lineBytes (k, v)).length by omega] at this ⊢
    exact this
  rw [hshift]
  rfl

theorem tokens_replicate_zero (m : Nat) : tokens (List.replicate m 0) = [] := by
  unfold tokens
  rw [hitIdxs_replicate_zero]
  rfl

theorem tokens_fileOf_append_zeros (recs : List (List Nat × List Nat)) (m : Nat)
    (wf : ∀ r ∈ recs, (∀ b ∈ r.1, b ≠ 59 ∧ b ≠ 10) ∧ (∀ b ∈ r.2, b ≠ 59 ∧ b ≠ 10)) :
    tokens (fileOf recs ++ List.replicate m 0) = recs := by
  induction recs with
  | nil =>
      simp only [fileOf, List.map_nil, List.flatten_nil, List.nil_append]
      exact tokens_replicate_zero m
  | cons r rest ih =>
      obtain ⟨k, v⟩ := r
      have hfile : fileOf ((k, v) :: rest) ++ List.replicate m 0 =
          lineBytes (k, v) ++ (fileOf rest ++ List.replicate m 0) := by
        simp [fileOf]
      rw [hfile, tokens_line_cons k v _ (wf (k, v) (by simp)).1 (wf (k, v) (by simp)).2,
        ih fun r hr => wf r (List.mem_cons_of_mem _ hr)]

/-! ### C4: keys longer than the 32-byte capacity -/

/-- C4 (amended): a line whose key is longer than the fixed 32-byte key
capacity makes the per-line step of `process_chunk_v2` fail (the
`arr[..semi - prev_end]` slice panics); the key is *not* truncated and no
value is aggregated — processing of the whole chunk aborts. -/
theorem c4_long_key_fails (key value rest : List Nat) (hlen : 32 < key.length)
    (hk : ∀ b ∈ key, b ≠ 59 ∧ b ≠ 10) (hv : ∀ b ∈ value, b ≠ 59 ∧ b ≠ 10) :
    process_chunk_v2 (lineBytes (key, value) ++ rest) = none := by
  unfold process_chunk_v2
  rw [tokens_line_cons key value rest hk hv]
  have hnone : mkKey key = none := by
    unfold mkKey
    rw [if_neg (by omega)]
  simp [List.foldlM, hnone]

theorem c4_long_key_fails_witness :
    32 < (List.replicate 33 97).length ∧
    process_chunk_v2 (lineBytes (List.replicate 33 97, [49]) ++ []) = none := by
  refine ⟨by simp, c4_long_key_fails (List.replicate 33 97) [49] [] (by simp) ?_ ?_⟩
  · intro b hb
    rw [List.eq_of_mem_replicate hb]
    omega
  · intro b hb
    rw [List.mem_singleton.mp hb]
    omega

/-- C4: the claim that an over-long key is truncated and its line aggregated
is false at a concrete input: the 33-byte key `aaaa…a` with value `1` makes
`process_chunk_v2` panic (`none`) instead of producing any table. -/
theorem c4_truncation_claim_cex :
    process_chunk_v2 (List.replicate 33 97 ++ [59, 49, 10]) = none := by decide

/-! ### C5: failed chunk reads -/

/-- C5 (amended): when both reads fail for a chunk, `read_chunk` returns the
empty valid range `(0, 0)` instead of propagating the error; the chunk
contributes an empty buffer, `process_chunk_v2` happily returns the empty
table for it, and the job carries on — the failure is silently swallowed,
it does not abort the run. -/
theorem c5_read_failure_silently_ignored (c : Nat) (file : List Nat)
    (failAt : Nat → Bool) (o : Nat) (h : failAt o = true) :
    read_chunkF failAt file o (c + CHUNK_EXCESS) = (0, 0) ∧
    chunkSliceF c file failAt o = [] ∧
    process_chunk_v2 (chunkSliceF c file failAt o) = some [] := by
  have h1 : read_chunkF failAt file o (c + CHUNK_EXCESS) = (0, 0) := by
    unfold read_chunkF
    rw [if_pos h]
  have h2 : chunkSliceF c file failAt o = [] := by
    unfold chunkSliceF
    rw [h1]
    rfl
  exact ⟨h1, h2, by rw [h2]; rfl⟩

theorem c5_read_failure_silently_ignored_witness :
    failAt4 4 = true ∧ read_chunkF failAt4 fileC5 4 (4 + CHUNK_EXCESS) = (0, 0) ∧
    chunkSliceF 4 fileC5 failAt4 4 = [] := by
  have h := c5_read_failure_silently_ignored 4 fileC5 failAt4 4 (by decide)
  exact ⟨by decide, h.1, h.2.1⟩

/-- C5: the claim that a failed chunk read aborts the whole job with no
partial output is false at a concrete input: for the two-line file
`aaaa;1\nb;2\n` with chunk size 4, failing the read at offset 4 still
produces a final table — built from the remaining readable chunks only
(it holds the `aaaa` record and has lost `b;2`), while the same run with no
failure holds both records. -/
theorem c5_partial_output_cex :
    pipelineTableF 4 fileC5 failAt4 =
      some [([97, 97, 97, 97] ++ List.replicate 28 0,
        { max := 1, min := 1, count := 1, sum := 1 })] ∧
    pipelineTableF 4 fileC5 noFail =
      some [([97, 97, 97, 97] ++ List.replicate 28 0,
        { max := 1, min := 1, count := 1, sum := 1 }),
       ([98] ++ List.replicate 31 0,
        { max := 2, min := 2, count := 1, sum := 2 })] := by decide

/-! ### C8: truncated reads never tokenize the zero fill -/

theorem chunkBuffer_length (file : List Nat) (o bufLen : Nat) :
    (chunkBuffer file o bufLen).length = bufLen := by
  simp only [chunkBuffer, List.length_append, List.length_take, List.length_drop,
    List.length_replicate]
  omega

theorem read_chunk_eq (file : List Nat) (o bufLen : Nat) :
    read_chunk file o bufLen =
      ((if o ≠ 0 then
          match memchr 10 (chunkBuffer file o bufLen) with
          | some i => i + 1
          | none => 0
        else 0),
       (match memchr2 10 0 ((chunkBuffer file o bufLen).drop (bufLen - CHUNK_EXCESS)) with
        | some i => bufLen - CHUNK_EXCESS + i + 1
        | none => bufLen)) := rfl

theorem read_chunk_snd_eq (file : List Nat) (o bufLen : Nat) :
    (read_chunk file o bufLen).2 =
      match memchr2 10 0 ((chunkBuffer file o bufLen).drop (bufLen - CHUNK_EXCESS)) with
      | some i => bufLen - CHUNK_EXCESS + i + 1
      | none => bufLen := rfl

theorem read_chunk_end_le (file : List Nat) (o bufLen : Nat)
    (h64 : CHUNK_EXCESS ≤ bufLen) : (read_chunk file o bufLen).2 ≤ bufLen := by
  rw [read_chunk_snd_eq]
  rcases hm : memchr2 10 0 ((chunkBuffer file o bufLen).drop (bufLen - CHUNK_EXCESS))
    with _ | i
  · simp [hm]
  · have hi : i < ((chunkBuffer file o bufLen).drop (bufLen - CHUNK_EXCESS)).length :=
      memchrP_some_lt hm
    simp only [List.length_drop, chunkBuffer_length] at hi
    simp only [hm]
    have hgoal : bufLen - CHUNK_EXCESS + i + 1 ≤ bufLen := by
      revert h64 hi
      unfold CHUNK_EXCESS
      omega
    exact hgoal

theorem sliceBytes_take_all (file : List Nat) (o bufLen s e : Nat) (he : e ≤ bufLen) :
    sliceBytes ((file.drop o).take bufLen) s e =
      sliceBytes file (o + s) (min (o + e) file.length) := by
  unfold sliceBytes
  rw [List.drop_take, List.drop_drop, List.take_take]
  rw [List.take_eq_take]
  simp only [List.length_take, List.length_drop]
  omega

/-- C8: for a truncated read (fewer bytes available than the requested
buffer), the tokens of the chunk's valid range equal the tokens of a range of
the file itself — every (key, value) pair the tokenizer emits lies entirely
within the bytes actually read; the zero-filled tail contributes nothing. -/
theorem c8_truncated_read_within_data (file : List Nat) (o c : Nat)
    (_h : file.length < o + (c + CHUNK_EXCESS)) :
    tokens (chunkSlice c file o) =
      tokens (sliceBytes file (o + (read_chunk file o (c + CHUNK_EXCESS)).1)
        (min (o + (read_chunk file o (c + CHUNK_EXCESS)).2) file.length)) := by
  have he : (read_chunk file o (c + CHUNK_EXCESS)).2 ≤ c + CHUNK_EXCESS :=
    read_chunk_end_le file o (c + CHUNK_EXCESS) (by omega)
  have h1 : tokens (chunkSlice c file o) =
      tokens (sliceBytes ((file.drop o).take (c + CHUNK_EXCESS))
        (read_chunk file o (c + CHUNK_EXCESS)).1 (read_chunk file o (c + CHUNK_EXCESS)).2) := by
    show tokens (sliceBytes (chunkBuffer file o (c + CHUNK_EXCESS)) _ _) = _
    unfold chunkBuffer
    rw [sliceBytes_append, sliceBytes_replicate, tokens_append_replicate_zero]
  rw [h1, sliceBytes_take_all file o (c + CHUNK_EXCESS) _ _ he]

theorem c8_truncated_read_within_data_witness :
    (List.length [97, 59, 49, 10] < 0 + (8 + CHUNK_EXCESS)) ∧
    tokens (chunkSlice 8 [97, 59, 49, 10] 0) =
      tokens (sliceBytes [97, 59, 49, 10] (0 + (read_chunk [97, 59, 49, 10] 0 (8 + CHUNK_EXCESS)).1)
        (min (0 + (read_chunk [97, 59, 49, 10] 0 (8 + CHUNK_EXCESS)).2) (List.length [97, 59, 49, 10]))) :=
  ⟨by decide, c8_truncated_read_within_data [97, 59, 49, 10] 0 8 (by decide)⟩

/-! ### C6: the merge monoid and order independence -/

theorem mergeRecord_assoc (a b c : Record) :
    mergeRecord (mergeRecord a b) c = mergeRecord a (mergeRecord b c) := by
  simp only [mergeRecord, Record.mk.injEq, i32wrap_add_left, i32wrap_add_right]
  exact ⟨max_assoc _ _ _, min_assoc _ _ _, by rw [Int.add_assoc], by rw [Int.add_assoc]⟩

theorem mergeRecord_comm (a b : Record) : mergeRecord a b = mergeRecord b a := by
  simp only [mergeRecord, Record.mk.injEq]
  exact ⟨max_comm _ _, min_comm _ _, by rw [Int.add_comm], by rw [Int.add_comm]⟩

theorem mergeOpt_none_right (x : Option Record) : mergeOpt x none = x := by
  cases x <;> rfl

theorem mergeOpt_assoc (x y z : Option Record) :
    mergeOpt (mergeOpt x y) z = mergeOpt x (mergeOpt y z) := by
  cases x <;> cases y <;> cases z <;> simp [mergeOpt, mergeRecord_assoc]

theorem mergeOpt_comm (x y : Option Record) : mergeOpt x y = mergeOpt y x := by
  cases x <;> cases y <;> simp [mergeOpt, mergeRecord_comm]

theorem aggStep_eq_merge (o : Option Record) (v : Int) :
    some (aggStep o v) = mergeOpt o (some (Record.new v)) := by
  cases o <;> rfl

theorem aggValues_merge (x y : Option Record) (vs : List Int) :
    aggValues (mergeOpt x y) vs = mergeOpt x (aggValues y vs) := by
  induction vs generalizing y with
  | nil => rfl
  | cons v vs ih =>
      show aggValues (some (aggStep (mergeOpt x y) v)) vs =
        mergeOpt x (aggValues (some (aggStep y v)) vs)
      rw [aggStep_eq_merge, mergeOpt_assoc, ← aggStep_eq_merge]
      exact ih (some (aggStep y v))

theorem aggValues_append (x : Option Record) (vs1 vs2 : List Int) :
    aggValues x (vs1 ++ vs2) = aggValues (aggValues x vs1) vs2 := by
  simp [aggValues, List.foldl_append]

/-! ### Table lookups under merging -/

theorem tableGet_eq_none_of_not_mem (t : Table) (k : List Nat)
    (h : k ∉ t.map Prod.fst) : tableGet t k = none := by
  induction t with
  | nil => rfl
  | cons e rest ih =>
      obtain ⟨k2, r⟩ := e
      simp only [List.map_cons, List.mem_cons] at h
      push_neg at h
      have hne : k2 ≠ k := Ne.symm h.1
      simp only [tableGet, if_neg hne]
      exact ih h.2

theorem tableGet_insertMerge_self (t : Table) (k : List Nat) (r : Record) :
    tableGet (insertMerge t k r) k = mergeOpt (tableGet t k) (some r) := by
  induction t with
  | nil => simp [insertMerge, tableGet, mergeOpt]
  | cons e rest ih =>
      obtain ⟨k2, r2⟩ := e
      by_cases h : k2 = k
      · subst h
        simp [insertMerge, tableGet, mergeOpt]
      · simp [insertMerge, tableGet, h, ih]

theorem tableGet_insertMerge_ne (t : Table) (k : List Nat) (r : Record) (k' : List Nat)
    (h : k' ≠ k) : tableGet (insertMerge t k r) k' = tableGet t k' := by
  induction t with
  | nil => simp [insertMerge, tableGet, Ne.symm h]
  | cons e rest ih =>
      obtain ⟨k2, r2⟩ := e
      by_cases h2 : k2 = k
      · subst h2
        simp [insertMerge, tableGet, Ne.symm h]
      · by_cases h3 : k2 = k'
        · subst h3
          simp [insertMerge, tableGet, h2]
        · simp [insertMerge, tableGet, h2, h3, ih]

theorem tableGet_mergeTables (t2 : Table) :
    ∀ (t1 : Table) (k : List Nat), NoDupKeys t2 →
      tableGet (mergeTables t1 t2) k = mergeOpt (tableGet t1 k) (tableGet t2 k) := by
  induction t2 with
  | nil =>
      intro t1 k _
      show tableGet t1 k = mergeOpt (tableGet t1 k) none
      rw [mergeOpt_none_right]
  | cons e rest ih =>
      intro t1 k h
      obtain ⟨k2, r2⟩ := e
      simp only [NoDupKeys, List.map_cons, List.nodup_cons] at h
      have hstep : mergeTables t1 ((k2, r2) :: rest) = mergeTables (insertMerge t1 k2 r2) rest := rfl
      rw [hstep, ih (insertMerge t1 k2 r2) k h.2]
      by_cases hk : k2 = k
      · subst hk
        rw [tableGet_insertMerge_self,
          tableGet_eq_none_of_not_mem rest k2 h.1, mergeOpt_none_right]
        show mergeOpt (tableGet t1 k2) (some r2) = mergeOpt (tableGet t1 k2) (tableGet ((k2, r2) :: rest) k2)
        simp [tableGet]
      · rw [tableGet_insertMerge_ne t1 k2 r2 k (Ne.symm hk)]
        show mergeOpt (tableGet t1 k) (tableGet rest k) =
          mergeOpt (tableGet t1 k) (tableGet ((k2, r2) :: rest) k)
        simp [tableGet, hk]

theorem tableGet_mergeAll (ts : List Table) :
    ∀ (acc : Table) (k : List Nat), (∀ t ∈ ts, NoDupKeys t) →
      tableGet (ts.foldl mergeTables acc) k =
        (ts.map (fun t => tableGet t k)).foldl mergeOpt (tableGet acc k) := by
  induction ts with
  | nil => intro acc k _; rfl
  | cons t ts ih =>
      intro acc k h
      show tableGet (ts.foldl mergeTables (mergeTables acc t)) k = _
      rw [ih (mergeTables acc t) k (fun u hu => h u (List.mem_cons_of_mem t hu)),
        tableGet_mergeTables t acc k (h t (List.mem_cons_self t ts))]
      rfl

/-! ### Keys stay distinct -/

theorem mem_keys_accumulate {t : Table} {k v x} (h : x ∈ (accumulate t k v).map Prod.fst) :
    x ∈ t.map Prod.fst ∨ x = k := by
  induction t with
  | nil => simpa [accumulate] using h
  | cons e rest ih =>
      obtain ⟨k2, r2⟩ := e
      by_cases h2 : k2 = k
      · subst h2
        simpa [accumulate] using Or.inl (by simpa [accumulate] using h)
      · simp only [accumulate, if_neg h2, List.map_cons, List.mem_cons] at h ⊢
        rcases h with h | h
        · exact Or.inl (Or.inl h)
        · rcases ih h with h | h
          · exact Or.inl (Or.inr h)
          · exact Or.inr h

theorem noDupKeys_accumulate (t : Table) (k : List Nat) (v : Int) (h : NoDupKeys t) :
    NoDupKeys (accumulate t k v) := by
  induction t with
  | nil => simp [accumulate, NoDupKeys]
  | cons e rest ih =>
      obtain ⟨k2, r2⟩ := e
      simp only [NoDupKeys, List.map_cons, List.nodup_cons] at h
      by_cases h2 : k2 = k
      · subst h2
        simpa [NoDupKeys, accumulate, List.nodup_cons] using h
      · simp only [NoDupKeys, accumulate, if_neg h2, List.map_cons, List.nodup_cons]
        refine ⟨fun hmem => ?_, ih h.2⟩
        rcases mem_keys_accumulate hmem with hm | hm
        · exact h.1 hm
        · exact h2 hm

theorem noDupKeys_buildTable (obs : List (List Nat × Int)) : NoDupKeys (buildTable obs) := by
  have haux : ∀ (l : List (List Nat × Int)) (t : Table), NoDupKeys t →
      NoDupKeys (l.foldl (fun t p => accumulate t p.1 p.2) t) := by
    intro l
    induction l with
    | nil => exact fun t h => h
    | cons p rest ih =>
        intro t h
        exact ih (accumulate t p.1 p.2) (noDupKeys_accumulate t p.1 p.2 h)
  exact haux obs [] (by simp [NoDupKeys])

/-! ### Per-key view of single-pass aggregation -/

theorem tableGet_foldl_accumulate (obs : List (List Nat × Int)) :
    ∀ (t : Table) (k : List Nat),
      tableGet (obs.foldl (fun t p => accumulate t p.1 p.2) t) k =
        aggValues (tableGet t k) (valuesFor obs k) := by
  induction obs with
  | nil => intro t k; rfl
  | cons p rest ih =>
      intro t k
      show tableGet (rest.foldl _ (accumulate t p.1 p.2)) k = _
      rw [ih (accumulate t p.1 p.2) k]
      by_cases hp : p.1 = k
      · rw [show accumulate t p.1 p.2 = accumulate t k p.2 by rw [hp],
          tableGet_accumulate_self]
        have hv : valuesFor (p :: rest) k = p.2 :: valuesFor rest k := by
          simp [valuesFor, List.filter_cons, hp]
        rw [hv]
        rfl
      · rw [tableGet_accumulate_ne t p.1 p.2 k (Ne.symm hp)]
        have hv : valuesFor (p :: rest) k = valuesFor rest k := by
          simp [valuesFor, List.filter_cons, hp]
        rw [hv]

theorem tableGet_buildTable (obs : List (List Nat × Int)) (k : List Nat) :
    tableGet (buildTable obs) k = aggValues none (valuesFor obs k) :=
  tableGet_foldl_accumulate obs [] k

theorem valuesFor_append (a b : List (List Nat × Int)) (k : List Nat) :
    valuesFor (a ++ b) k = valuesFor a k ++ valuesFor b k := by
  simp [valuesFor, List.filter_append]

theorem valuesFor_flatten (gs : List (List (List Nat × Int))) (k : List Nat) :
    valuesFor gs.flatten k = (gs.map (fun g => valuesFor g k)).flatten := by
  induction gs with
  | nil => rfl
  | cons g gs ih => simp only [List.flatten_cons, valuesFor_append, ih, List.map_cons]

theorem foldl_mergeOpt_aggValues (ls : List (List Int)) :
    ∀ x : Option Record,
      (ls.map (fun vs => aggValues none vs)).foldl mergeOpt x = aggValues x ls.flatten := by
  induction ls with
  | nil => intro x; rfl
  | cons vs ls ih =>
      intro x
      show (ls.map _).foldl mergeOpt (mergeOpt x (aggValues none vs)) =
        aggValues x (vs ++ ls.flatten)
      rw [ih (mergeOpt x (aggValues none vs)), aggValues_append]
      congr 1
      have h := aggValues_merge x none vs
      rw [mergeOpt_none_right] at h
      exact h.symm

theorem tableGet_mergeAll_buildTables (groups : List (List (List Nat × Int))) (k : List Nat) :
    tableGet (mergeAll (groups.map buildTable)) k =
      tableGet (buildTable groups.flatten) k := by
  unfold mergeAll
  rw [tableGet_mergeAll (groups.map buildTable) [] k
    (by intro t ht; obtain ⟨g, _, rfl⟩ := List.mem_map.mp ht; exact noDupKeys_buildTable g)]
  rw [List.map_map]
  have h1 : groups.map ((fun t => tableGet t k) ∘ buildTable) =
      (groups.map (fun g => valuesFor g k)).map (fun vs => aggValues none vs) := by
    rw [List.map_map]
    exact List.map_congr_left fun g _ => tableGet_buildTable g k
  rw [h1, foldl_mergeOpt_aggValues, tableGet_buildTable, valuesFor_flatten]
  rfl

/-- C6: the `Record` merge is associative and commutative, and consequently,
for any partition of the observations into groups and any order of merging
the per-group tables, every key's merged `StatRecord` is identical (the same
`i32` quadruple) to the one from aggregating all observations in one pass. -/
theorem c6_merge_assoc_comm_partition :
    (∀ a b c : Record, mergeRecord (mergeRecord a b) c = mergeRecord a (mergeRecord b c)) ∧
    (∀ a b : Record, mergeRecord a b = mergeRecord b a) ∧
    (∀ (groups groups' : List (List (List Nat × Int))), groups.Perm groups' →
      ∀ k, tableGet (mergeAll (groups.map buildTable)) k =
            tableGet (buildTable groups.flatten) k ∧
          tableGet (mergeAll (groups'.map buildTable)) k =
            tableGet (buildTable groups.flatten) k) := by
  refine ⟨mergeRecord_assoc, mergeRecord_comm, ?_⟩
  intro groups groups' hperm k
  refine ⟨tableGet_mergeAll_buildTables groups k, ?_⟩
  rw [tableGet_mergeAll_buildTables groups' k]
  have hp2 : (groups'.map (fun g => valuesFor g k)).Perm (groups.map (fun g => valuesFor g k)) :=
    (hperm.map (fun g => valuesFor g k)).symm
  rw [tableGet_buildTable, tableGet_buildTable, valuesFor_flatten, valuesFor_flatten,
    ← foldl_mergeOpt_aggValues, ← foldl_mergeOpt_aggValues]
  exact (hp2.map (fun vs => aggValues none vs)).foldl_eq'
    (fun x _ y _ z => by rw [mergeOpt_assoc, mergeOpt_assoc, mergeOpt_comm x y]) none

theorem c6_merge_assoc_comm_partition_witness :
    tableGet (mergeAll ([[([97], 5)], [([97], 7)]].map buildTable)) [97] =
      tableGet (buildTable ([[([97], 5)], [([97], 7)]].flatten)) [97] ∧
    tableGet (mergeAll ([[([97], 7)], [([97], 5)]].map buildTable)) [97] =
      tableGet (buildTable ([[([97], 5)], [([97], 7)]].flatten)) [97] :=
  c6_merge_assoc_comm_partition.2.2 [[([97], 5)], [([97], 7)]] [[([97], 7)], [([97], 5)]]
    (by decide) [97]

/-! ### C2: structure of well-formed record files -/

theorem fileOf_append (a b : List (List Nat × List Nat)) :
    fileOf (a ++ b) = fileOf a ++ fileOf b := by
  simp [fileOf]

theorem fileOf_cons (r : List Nat × List Nat) (rest : List (List Nat × List Nat)) :
    fileOf (r :: rest) = lineBytes r ++ fileOf rest := by
  simp [fileOf]

theorem lineBytes_length_pos (r : List Nat × List Nat) : 1 ≤ (lineBytes r).length := by
  obtain ⟨k, v⟩ := r
  rw [lineBytes_length]
  omega

theorem recs_eq_nil_of_fileOf (recs : List (List Nat × List Nat))
    (h : (fileOf recs).length = 0) : recs = [] := by
  cases recs with
  | nil => rfl
  | cons r rest =>
      rw [fileOf_cons, List.length_append] at h
      have := lineBytes_length_pos r
      omega

theorem cutRecs_append (recs : List (List Nat × List Nat)) (p : Nat) :
    (cutRecs recs p).1 ++ (cutRecs recs p).2 = recs := by
  induction recs generalizing p with
  | nil => rfl
  | cons r rest ih =>
      by_cases h : p < (lineBytes r).length
      · simp [cutRecs, h]
      · simp only [cutRecs, if_neg h]
        exact congrArg (r :: ·) (ih (p - (lineBytes r).length))

theorem cutRecs_ge (recs : List (List Nat × List Nat)) (p : Nat)
    (h : (fileOf recs).length ≤ p) : cutRecs recs p = (recs, []) := by
  induction recs generalizing p with
  | nil => rfl
  | cons r rest ih =>
      rw [fileOf_cons, List.length_append] at h
      have h1 : ¬ p < (lineBytes r).length := by omega
      simp only [cutRecs, if_neg h1, ih (p - (lineBytes r).length) (by omega)]

theorem cutRecs_mono (recs : List (List Nat × List Nat)) (p p' : Nat) (h : p ≤ p') :
    ∃ M, (cutRecs recs p').1 = (cutRecs recs p).1 ++ M := by
  induction recs generalizing p p' with
  | nil => exact ⟨[], rfl⟩
  | cons r rest ih =>
      by_cases h2 : p' < (lineBytes r).length
      · have h1 : p < (lineBytes r).length := by omega
        exact ⟨[], by simp [cutRecs, h1, h2]⟩
      · by_cases h1 : p < (lineBytes r).length
        · refine ⟨(cutRecs rest (p' - (lineBytes r).length)).1, ?_⟩
          simp [cutRecs, h1, h2]
        · obtain ⟨M, hM⟩ := ih (p - (lineBytes r).length) (p' - (lineBytes r).length) (by omega)
          refine ⟨M, ?_⟩
          simp only [cutRecs, if_neg h1, if_neg h2]
          exact congrArg (r :: ·) hM

theorem fileOf_no_zero {recs : List (List Nat × List Nat)} (hwf : wfRecs recs) :
    ∀ b ∈ fileOf recs, b ≠ 0 := by
  intro b hb
  obtain ⟨l, hl, hbl⟩ := List.mem_flatten.mp hb
  obtain ⟨r, hr, rfl⟩ := List.mem_map.mp hl
  obtain ⟨hk, hv, _⟩ := hwf r hr
  obtain ⟨k, v⟩ := r
  unfold lineBytes at hbl
  rcases List.mem_append.mp hbl with h | h
  · exact (hk b h).2.2
  · rcases List.mem_cons.mp h with rfl | h
    · omega
    · rcases List.mem_append.mp h with h | h
      · exact (hv b h).2.2
      · rw [List.mem_singleton.mp h]
        omega

theorem getD_drop (l : List Nat) (n j : Nat) :
    (l.drop n).getD j 0 = l.getD (n + j) 0 := by
  rw [List.getD_eq_getElem?_getD, List.getD_eq_getElem?_getD, List.getElem?_drop]

theorem getD_mem_of_lt (l : List Nat) (i : Nat) (h : i < l.length) : l.getD i 0 ∈ l := by
  rw [List.getD_eq_getElem?_getD, List.getElem?_eq_getElem h]
  exact List.getElem_mem h

theorem lineBytes_getD_last (k v : List Nat) :
    (lineBytes (k, v)).getD (k.length + 1 + v.length) 0 = 10 := by
  rw [show lineBytes (k, v) = k ++ 59 :: (v ++ [10]) from rfl]
  rw [List.getD_eq_getElem?_getD,
    List.getElem?_append_right (by omega : k.length ≤ k.length + 1 + v.length),
    show k.length + 1 + v.length - k.length = v.length + 1 from by omega,
    List.getElem?_cons_succ,
    List.getElem?_append_right (le_refl v.length), Nat.sub_self]
  rfl

theorem lineBytes_getD_before (k v : List Nat) (j : Nat)
    (hk : kvFree k) (hv : kvFree v) (hj : j < k.length + 1 + v.length) :
    (lineBytes (k, v)).getD j 0 ≠ 10 := by
  rw [show lineBytes (k, v) = k ++ 59 :: (v ++ [10]) from rfl]
  rcases Nat.lt_trichotomy j k.length with hc | hc | hc
  · rw [List.getD_eq_getElem?_getD, List.getElem?_append_left hc,
      ← List.getD_eq_getElem?_getD]
    exact (hk _ (getD_mem_of_lt k j hc)).2.1
  · rw [List.getD_eq_getElem?_getD, List.getElem?_append_right (by omega), hc, Nat.sub_self]
    simp
  · rw [List.getD_eq_getElem?_getD, List.getElem?_append_right (by omega)]
    obtain ⟨d, hd⟩ : ∃ d, j - k.length = d + 1 := ⟨j - k.length - 1, by omega⟩
    rw [hd, List.getElem?_cons_succ, List.getElem?_append_left (by omega),
      ← List.getD_eq_getElem?_getD]
    exact fun he => (hv _ (getD_mem_of_lt v d (by omega))).2.1 (by rw [← he])

/-- The structural heart of chunk-boundary alignment: for a well-formed file
and any position `p` inside it, the cut returned by `cutRecs` decomposes the
records; its byte boundary lies strictly after `p` but within `CHUNK_EXCESS`
bytes of it, and the first newline found at or after `p` sits exactly one
byte before the boundary. -/
theorem cut_spec (recs : List (List Nat × List Nat)) (hwf : wfRecs recs) :
    ∀ p, p < (fileOf recs).length →
      p < cutLen recs p ∧ cutLen recs p ≤ p + CHUNK_EXCESS ∧
      cutLen recs p ≤ (fileOf recs).length ∧
      memchrP (fun b => b == 10) ((fileOf recs).drop p) = some (cutLen recs p - 1 - p) := by
  induction recs with
  | nil => intro p hp; simp [fileOf] at hp
  | cons r rest ih =>
      intro p hp
      obtain ⟨k, v⟩ := r
      obtain ⟨hk, hv, hlen⟩ := hwf (k, v) (by simp)
      have hL : (lineBytes (k, v)).length = k.length + 1 + v.length + 1 := lineBytes_length k v
      rw [lineBytes_length] at hlen
      by_cases h1 : p < (lineBytes (k, v)).length
      · have hcut : cutLen ((k, v) :: rest) p = (lineBytes (k, v)).length := by
          simp [cutLen, cutRecs, h1, fileOf]
        rw [hcut]
        rw [hL] at h1 ⊢
        refine ⟨by omega, by omega, ?_, ?_⟩
        · rw [fileOf_cons, List.length_append, hL]
          omega
        · have hsplit : fileOf ((k, v) :: rest) = lineBytes (k, v) ++ fileOf rest :=
            fileOf_cons (k, v) rest
          rw [hsplit, List.drop_append_of_le_length (by omega)]
          apply memchrP_eq_some
          · simp only [List.length_append, List.length_drop, hL]
            omega
          · rw [List.getD_eq_getElem?_getD,
              List.getElem?_append_left (by simp only [List.length_drop, hL]; omega),
              ← List.getD_eq_getElem?_getD, getD_drop,
              show p + (k.length + 1 + v.length + 1 - 1 - p) = k.length + 1 + v.length
                from by omega,
              lineBytes_getD_last]
            rfl
          · intro j hj
            rw [List.getD_eq_getElem?_getD,
              List.getElem?_append_left (by simp only [List.length_drop, hL]; omega),
              ← List.getD_eq_getElem?_getD, getD_drop]
            have hval : (lineBytes (k, v)).getD (p + j) 0 ≠ 10 :=
              lineBytes_getD_before k v (p + j) hk hv (by omega)
            simpa using hval
      · -- p lies beyond the first line: recurse
        have hp' : p - (lineBytes (k, v)).length < (fileOf rest).length := by
          rw [fileOf_cons, List.length_append] at hp
          omega
        obtain ⟨ih1, ih2, ih3, ih4⟩ :=
          ih (fun r hr => hwf r (List.mem_cons_of_mem _ hr)) (p - (lineBytes (k, v)).length) hp'
        have hcut : cutLen ((k, v) :: rest) p =
            (lineBytes (k, v)).length + cutLen rest (p - (lineBytes (k, v)).length) := by
          simp only [cutLen, cutRecs, if_neg h1]
          rw [show ((k, v) :: (cutRecs rest (p - (lineBytes (k, v)).length)).1) =
            [(k, v)] ++ (cutRecs rest (p - (lineBytes (k, v)).length)).1 from rfl,
            fileOf_append, List.length_append]
          simp [fileOf]
        refine ⟨by omega, by omega, ?_, ?_⟩
        · rw [hcut, fileOf_cons, List.length_append]
          omega
        · rw [fileOf_cons, hcut]
          rw [List.drop_append_eq_append_drop,
            List.drop_eq_nil_of_le (by omega), List.nil_append, ih4]
          congr 1
          omega

/-! ### The bytes `read_chunk` inspects -/

theorem chunkBuffer_getD (file : List Nat) (o bufLen i : Nat) (hi : i < bufLen) :
    (chunkBuffer file o bufLen).getD i 0 =
      if o + i < file.length then file.getD (o + i) 0 else 0 := by
  unfold chunkBuffer
  rw [List.getD_eq_getElem?_getD]
  by_cases hreal : o + i < file.length
  · rw [List.getElem?_append_left (by simp only [List.length_take, List.length_drop]; omega),
      List.getElem?_take, if_pos hi, List.getElem?_drop, ← List.getD_eq_getElem?_getD,
      if_pos hreal]
  · rw [List.getElem?_append_right (by simp only [List.length_take, List.length_drop]; omega),
      List.getElem?_replicate,
      if_pos (by simp only [List.length_take, List.length_drop]; omega), if_neg hreal]
    rfl

theorem read_chunk_fst_zero (file : List Nat) (bufLen : Nat) :
    (read_chunk file 0 bufLen).1 = 0 := rfl

theorem read_chunk_fst_of_wf (recs : List (List Nat × List Nat)) (c o : Nat)
    (hwf : wfRecs recs) (ho : o < (fileOf recs).length) (hnz : o ≠ 0) :
    (read_chunk (fileOf recs) o (c + CHUNK_EXCESS)).1 = cutLen recs o - o := by
  obtain ⟨h1, h2, h3, h4⟩ := cut_spec recs hwf o ho
  have hfst : (read_chunk (fileOf recs) o (c + CHUNK_EXCESS)).1 =
      if o ≠ 0 then
        match memchr 10 (chunkBuffer (fileOf recs) o (c + CHUNK_EXCESS)) with
        | some i => i + 1
        | none => 0
      else 0 := rfl
  rw [hfst, if_pos hnz]
  have hm : memchr 10 (chunkBuffer (fileOf recs) o (c + CHUNK_EXCESS)) =
      some (cutLen recs o - 1 - o) := by
    unfold memchr
    apply memchrP_eq_some
    · rw [chunkBuffer_length]
      omega
    · rw [chunkBuffer_getD _ _ _ _ (by omega), if_pos (by omega)]
      obtain ⟨hb, _⟩ := memchrP_spec h4
      rw [getD_drop] at hb
      exact hb
    · intro j hj
      rw [chunkBuffer_getD _ _ _ _ (by omega), if_pos (by omega)]
      obtain ⟨_, hprev⟩ := memchrP_spec h4
      have hj2 := hprev j hj
      rwa [getD_drop] at hj2
  rw [hm]
  show cutLen recs o - 1 - o + 1 = cutLen recs o - o
  omega

theorem read_chunk_snd_of_wf_mid (recs : List (List Nat × List Nat)) (c o : Nat)
    (hwf : wfRecs recs) (hmid : o + c < (fileOf recs).length) :
    (read_chunk (fileOf recs) o (c + CHUNK_EXCESS)).2 = cutLen recs (o + c) - o := by
  obtain ⟨h1, h2, h3, h4⟩ := cut_spec recs hwf (o + c) hmid
  rw [read_chunk_snd_eq, show c + CHUNK_EXCESS - CHUNK_EXCESS = c from by omega]
  have hm : memchr2 10 0 ((chunkBuffer (fileOf recs) o (c + CHUNK_EXCESS)).drop c) =
      some (cutLen recs (o + c) - 1 - (o + c)) := by
    unfold memchr2
    apply memchrP_eq_some
    · simp only [List.length_drop, chunkBuffer_length]
      omega
    · rw [getD_drop, chunkBuffer_getD _ _ _ _ (by omega), if_pos (by omega)]
      obtain ⟨hb, _⟩ := memchrP_spec h4
      rw [getD_drop] at hb
      have hb2 : (fileOf recs).getD (o + (c + (cutLen recs (o + c) - 1 - (o + c)))) 0 = 10 := by
        rw [show o + (c + (cutLen recs (o + c) - 1 - (o + c))) =
          o + c + (cutLen recs (o + c) - 1 - (o + c)) from by omega]
        simpa using hb
      rw [hb2]
      rfl
    · intro j hj
      rw [getD_drop, chunkBuffer_getD _ _ _ _ (by omega), if_pos (by omega)]
      obtain ⟨_, hprev⟩ := memchrP_spec h4
      have hne10 : (fileOf recs).getD (o + (c + j)) 0 ≠ 10 := by
        rw [show o + (c + j) = o + c + j from by omega, ← getD_drop]
        intro he
        have hj2 := hprev j (by omega)
        rw [he] at hj2
        simp at hj2
      have hnz : (fileOf recs).getD (o + (c + j)) 0 ≠ 0 := by
        apply fileOf_no_zero hwf
        exact getD_mem_of_lt _ _ (by omega)
      show ((fileOf recs).getD (o + (c + j)) 0 == 10 ||
        (fileOf recs).getD (o + (c + j)) 0 == 0) = false
      rw [Bool.or_eq_false_iff, beq_eq_false_iff_ne, beq_eq_false_iff_ne]
      exact ⟨hne10, hnz⟩
  rw [hm]
  show c + (cutLen recs (o + c) - 1 - (o + c)) + 1 = cutLen recs (o + c) - o
  omega

theorem read_chunk_snd_last (file : List Nat) (c o : Nat)
    (hlast : file.length ≤ o + c) :
    (read_chunk file o (c + CHUNK_EXCESS)).2 = c + 1 := by
  rw [read_chunk_snd_eq, show c + CHUNK_EXCESS - CHUNK_EXCESS = c from by omega]
  have hm : memchr2 10 0 ((chunkBuffer file o (c + CHUNK_EXCESS)).drop c) = some 0 := by
    unfold memchr2
    apply memchrP_eq_some
    · simp only [List.length_drop, chunkBuffer_length]
      have h64 : CHUNK_EXCESS = 64 := rfl
      omega
    · rw [getD_drop, Nat.add_zero,
        chunkBuffer_getD _ _ _ _ (by have h64 : CHUNK_EXCESS = 64 := rfl; omega),
        if_neg (by omega)]
      rfl
    · intro j hj
      omega
  rw [hm]

/-! ### Chunk slices of well-formed files -/

theorem wfRecs_tok {recs : List (List Nat × List Nat)} (hwf : wfRecs recs) :
    ∀ r ∈ recs, (∀ b ∈ r.1, b ≠ 59 ∧ b ≠ 10) ∧ (∀ b ∈ r.2, b ≠ 59 ∧ b ≠ 10) :=
  fun r hr =>
    ⟨fun b hb => ⟨((hwf r hr).1 b hb).1, ((hwf r hr).1 b hb).2.1⟩,
     fun b hb => ⟨((hwf r hr).2.1 b hb).1, ((hwf r hr).2.1 b hb).2.1⟩⟩

theorem buffer_slice_of_le (file : List Nat) (o bufLen a b : Nat)
    (hb : o + b ≤ file.length) (hb2 : b ≤ bufLen) :
    sliceBytes (chunkBuffer file o bufLen) a b = sliceBytes file (o + a) (o + b) := by
  unfold chunkBuffer
  rw [sliceBytes_append, sliceBytes_replicate]
  have hz : b - ((file.drop o).take bufLen).length = 0 := by
    simp only [List.length_take, List.length_drop]
    omega
  rw [hz, Nat.zero_sub, Nat.zero_min, List.replicate_zero, List.append_nil,
    sliceBytes_take_all file o bufLen a b hb2, Nat.min_eq_left hb]

theorem buffer_slice_with_zeros (file : List Nat) (o bufLen a b : Nat)
    (ho : o ≤ file.length) (ha : o + a ≤ file.length) (hN : file.length ≤ o + b)
    (hb2 : b ≤ bufLen) (hEOF : file.length - o ≤ bufLen) :
    sliceBytes (chunkBuffer file o bufLen) a b =
      sliceBytes file (o + a) file.length ++
        List.replicate (b - (file.length - o)) 0 := by
  unfold chunkBuffer
  rw [sliceBytes_append, sliceBytes_replicate]
  have hrl : ((file.drop o).take bufLen).length = file.length - o := by
    simp only [List.length_take, List.length_drop]
    omega
  rw [hrl]
  congr 1
  · rw [sliceBytes_take_all file o bufLen a b hb2, Nat.min_eq_right (by omega)]
  · congr 1
    omega

theorem sliceBytes_fileOf_prefix (A B : List (List Nat × List Nat)) :
    sliceBytes (fileOf (A ++ B)) 0 (fileOf A).length = fileOf A := by
  rw [fileOf_append]
  unfold sliceBytes
  rw [List.drop_zero, Nat.sub_zero, List.take_left]

theorem sliceBytes_fileOf_middle (A M B : List (List Nat × List Nat)) :
    sliceBytes (fileOf (A ++ M ++ B)) (fileOf A).length
      ((fileOf A).length + (fileOf M).length) = fileOf M := by
  rw [fileOf_append, fileOf_append, List.append_assoc]
  unfold sliceBytes
  rw [List.drop_left,
    show (fileOf A).length + (fileOf M).length - (fileOf A).length = (fileOf M).length
      from by omega,
    List.take_left]

theorem sliceBytes_fileOf_suffix (A B : List (List Nat × List Nat)) :
    sliceBytes (fileOf (A ++ B)) (fileOf A).length (fileOf (A ++ B)).length = fileOf B := by
  rw [fileOf_append]
  unfold sliceBytes
  rw [List.drop_left, List.length_append,
    show (fileOf A).length + (fileOf B).length - (fileOf A).length = (fileOf B).length
      from by omega,
    List.take_length]

theorem lt_ceil_iff (c n k : Nat) (hc : 1 ≤ c) : k < (n + c - 1) / c ↔ k * c < n := by
  rw [Nat.lt_iff_add_one_le, Nat.le_div_iff_mul_le hc, Nat.succ_mul]
  omega

/-! ### Assembling the chunks -/

theorem tok_suffix (c : Nat) (recs : List (List Nat × List Nat))
    (hc : 1 ≤ c) (hwf : wfRecs recs) :
    ∀ (n j : Nat), 1 ≤ j →
      j + n = ((fileOf recs).length + c - 1) / c →
      (((List.range' j n).map (· * c)).map
          (fun o => tokens (chunkSlice c (fileOf recs) o))).flatten =
        (cutRecs recs (j * c)).2 := by
  intro n
  induction n with
  | zero =>
      intro j hj hK
      have hge : (fileOf recs).length ≤ j * c := by
        by_contra hlt
        push_neg at hlt
        have := (lt_ceil_iff c (fileOf recs).length j hc).mpr hlt
        omega
      rw [cutRecs_ge recs (j * c) hge]
      rfl
  | succ n ih =>
      intro j hj hK
      have hjK : j < ((fileOf recs).length + c - 1) / c := by omega
      have hoN : j * c < (fileOf recs).length := (lt_ceil_iff _ _ _ hc).mp hjK
      have honz : j * c ≠ 0 := by
        have h1 : 1 * c ≤ j * c := Nat.mul_le_mul_right c hj
        omega
      rw [List.range'_succ, List.map_cons, List.map_cons, List.flatten_cons]
      have hsfst := read_chunk_fst_of_wf recs c (j * c) hwf hoN honz
      obtain ⟨g1, g2, g3, _⟩ := cut_spec recs hwf (j * c) hoN
      by_cases hmid : j * c + c < (fileOf recs).length
      · -- a middle chunk: its tokens are exactly the records between the two cuts
        obtain ⟨M, hM⟩ := cutRecs_mono recs (j * c) (j * c + c) (by omega)
        have hA := cutRecs_append recs (j * c)
        have hA' := cutRecs_append recs (j * c + c)
        have hB : (cutRecs recs (j * c)).2 = M ++ (cutRecs recs (j * c + c)).2 := by
          have h0 := hA.trans hA'.symm
          rw [hM, List.append_assoc] at h0
          exact List.append_cancel_left h0
        have hssnd := read_chunk_snd_of_wf_mid recs c (j * c) hwf hmid
        obtain ⟨g1', g2', g3', _⟩ := cut_spec recs hwf (j * c + c) hmid
        have hslice : chunkSlice c (fileOf recs) (j * c) =
            sliceBytes (fileOf recs) (cutLen recs (j * c)) (cutLen recs (j * c + c)) := by
          unfold chunkSlice
          rw [hsfst, hssnd, buffer_slice_of_le _ _ _ _ _ (by omega) (by omega)]
          congr 1 <;> omega
        have hlenA' : cutLen recs (j * c + c) = cutLen recs (j * c) + (fileOf M).length := by
          unfold cutLen
          rw [hM, fileOf_append, List.length_append]
        have hrecs : recs = (cutRecs recs (j * c)).1 ++ M ++ (cutRecs recs (j * c + c)).2 := by
          rw [List.append_assoc, ← hB]
          exact hA.symm
        have htok : tokens (chunkSlice c (fileOf recs) (j * c)) = M := by
          rw [hslice, hlenA']
          unfold cutLen
          have hmidslice :=
            sliceBytes_fileOf_middle (cutRecs recs (j * c)).1 M (cutRecs recs (j * c + c)).2
          rw [← hrecs] at hmidslice
          rw [hmidslice]
          have hwfM : ∀ r ∈ M, (∀ b ∈ r.1, b ≠ 59 ∧ b ≠ 10) ∧ (∀ b ∈ r.2, b ≠ 59 ∧ b ≠ 10) := by
            intro r hr
            refine wfRecs_tok hwf r ?_
            rw [hrecs]
            exact List.mem_append.mpr (Or.inl (List.mem_append.mpr (Or.inr hr)))
          have h2 := tokens_fileOf_append_zeros M 0 hwfM
          simpa using h2
        rw [htok]
        have hnext := ih (j + 1) (by omega) (by omega)
        rw [show (j + 1) * c = j * c + c from by rw [Nat.succ_mul]] at hnext
        rw [hnext]
        exact hB.symm
      · -- the last chunk: its tokens are all remaining records
        push_neg at hmid
        have hn0 : n = 0 := by
          by_contra hne
          have hj1K : j + 1 < ((fileOf recs).length + c - 1) / c := by omega
          have h2 := (lt_ceil_iff _ _ _ hc).mp hj1K
          rw [Nat.succ_mul] at h2
          omega
        subst hn0
        rw [show List.range' (j + 1) 0 = [] from rfl]
        simp only [List.map_nil, List.flatten_nil, List.append_nil]
        have hssnd := read_chunk_snd_last (fileOf recs) c (j * c) hmid
        have hA := cutRecs_append recs (j * c)
        have hE64 : CHUNK_EXCESS = 64 := rfl
        have hslice : chunkSlice c (fileOf recs) (j * c) =
            sliceBytes (fileOf recs) (cutLen recs (j * c)) (fileOf recs).length ++
              List.replicate (c + 1 - ((fileOf recs).length - j * c)) 0 := by
          unfold chunkSlice
          rw [hsfst, hssnd,
            buffer_slice_with_zeros _ _ _ _ _ (by omega) (by omega) (by omega)
              (by omega) (by omega)]
          congr 2
          omega
        have hsuffix : sliceBytes (fileOf recs) (cutLen recs (j * c)) (fileOf recs).length =
            fileOf (cutRecs recs (j * c)).2 := by
          unfold cutLen
          have h2 := sliceBytes_fileOf_suffix (cutRecs recs (j * c)).1 (cutRecs recs (j * c)).2
          rw [hA] at h2
          exact h2
        rw [hslice, hsuffix]
        apply tokens_fileOf_append_zeros
        intro r hr
        refine wfRecs_tok hwf r ?_
        rw [← hA]
        exact List.mem_append.mpr (Or.inr hr)

/-- C2 (amended): for every chunk size `c ≥ 1` and every well-formed record
file — every line `key;value\n` with `key`, `value` free of `';'`, `'\n'` and
NUL bytes, and every line at most `CHUNK_EXCESS` (64) bytes long — the
(key, value) pairs tokenized across all chunks, via `read_chunk`'s boundary
alignment, are exactly the records of the file, each tokenized exactly once,
in order: none duplicated, none dropped, none split across two chunks. -/
theorem c2_chunk_tokens_exact (c : Nat) (recs : List (List Nat × List Nat))
    (hc : 1 ≤ c) (hwf : wfRecs recs) :
    pipelineTokens c (fileOf recs) = recs := by
  by_cases hN : (fileOf recs).length = 0
  · have h0 : recs = [] := recs_eq_nil_of_fileOf recs hN
    subst h0
    show ((chunkOffsets c (fileOf ([] : List (List Nat × List Nat))).length).map
      (fun o => tokens (chunkSlice c (fileOf ([] : List (List Nat × List Nat))) o))).flatten = []
    rw [show (fileOf ([] : List (List Nat × List Nat))).length = 0 from rfl]
    unfold chunkOffsets
    rw [show (0 + c - 1) / c = 0 from Nat.div_eq_of_lt (by omega)]
    rfl
  · have hpos : 0 < (fileOf recs).length := Nat.pos_of_ne_zero hN
    have hK1 : 1 ≤ ((fileOf recs).length + c - 1) / c := by
      have h1 := (lt_ceil_iff c (fileOf recs).length 0 hc).mpr (by simpa using hpos)
      omega
    obtain ⟨K', hK'⟩ : ∃ K', ((fileOf recs).length + c - 1) / c = K' + 1 :=
      ⟨((fileOf recs).length + c - 1) / c - 1, by omega⟩
    unfold pipelineTokens chunkOffsets
    rw [hK', List.range_eq_range', List.range'_succ, List.map_cons, List.map_cons,
      List.flatten_cons, show 0 * c = 0 from by omega]
    have hrest := tok_suffix c recs hc hwf K' 1 (le_refl 1) (by omega)
    rw [Nat.one_mul] at hrest
    rw [hrest]
    by_cases hmid : c < (fileOf recs).length
    · have hssnd := read_chunk_snd_of_wf_mid recs c 0 hwf (by omega)
      rw [Nat.zero_add, Nat.sub_zero] at hssnd
      obtain ⟨g1, g2, g3, _⟩ := cut_spec recs hwf c hmid
      have hslice : chunkSlice c (fileOf recs) 0 =
          sliceBytes (fileOf recs) 0 (cutLen recs c) := by
        unfold chunkSlice
        rw [read_chunk_fst_zero, hssnd, buffer_slice_of_le _ _ _ _ _ (by omega) (by omega)]
        congr 1
        omega
      have hA := cutRecs_append recs c
      have htok : tokens (chunkSlice c (fileOf recs) 0) = (cutRecs recs c).1 := by
        rw [hslice]
        unfold cutLen
        have hpre := sliceBytes_fileOf_prefix (cutRecs recs c).1 (cutRecs recs c).2
        rw [hA] at hpre
        rw [hpre]
        have h2 := tokens_fileOf_append_zeros (cutRecs recs c).1 0 (by
          intro r hr
          refine wfRecs_tok hwf r ?_
          rw [← hA]
          exact List.mem_append.mpr (Or.inl hr))
        simpa using h2
      rw [htok]
      exact hA
    · push_neg at hmid
      have hsuf0 : (cutRecs recs c).2 = [] := by rw [cutRecs_ge recs c hmid]
      rw [hsuf0, List.append_nil]
      have hssnd := read_chunk_snd_last (fileOf recs) c 0 (by omega)
      have hE64 : CHUNK_EXCESS = 64 := rfl
      have hslice : chunkSlice c (fileOf recs) 0 =
          fileOf recs ++ List.replicate (c + 1 - (fileOf recs).length) 0 := by
        unfold chunkSlice
        rw [read_chunk_fst_zero, hssnd,
          buffer_slice_with_zeros _ _ _ _ _ (by omega) (by omega) (by omega)
            (by omega) (by omega)]
        congr 1
        unfold sliceBytes
        rw [show (fileOf recs).length - (0 + 0) = (fileOf recs).length from by omega,
          List.drop_zero, List.take_length]
      rw [hslice]
      exact tokens_fileOf_append_zeros recs _ (wfRecs_tok hwf)

/-- C2: as stated for *every* input file the claim is false: in
`fileLongLine` the first line is 129 bytes long — longer than the
`CHUNK_EXCESS` margin — and straddles the chunk boundary at offset 64, so
with chunk size 64 no chunk ever tokenizes it: the pipeline yields only the
second line's record, while tokenizing the whole file yields both. -/
theorem c2_chunk_lines_cex :
    pipelineTokens 64 fileLongLine = [([98], [50])] ∧
    tokens fileLongLine = [(List.replicate 126 97, [49]), ([98], [50])] := by decide

theorem c2_chunk_tokens_exact_witness :
    1 ≤ 4 ∧ wfRecs [([97], [49]), ([98], [50])] ∧
    pipelineTokens 4 (fileOf [([97], [49]), ([98], [50])]) = [([97], [49]), ([98], [50])] :=
  ⟨by decide, by unfold wfRecs kvFree; decide, c2_chunk_tokens_exact 4 [([97], [49]), ([98], [50])]
    (by decide) (by unfold wfRecs kvFree; decide)⟩
